import Mathlib

/-!
# Verification of the payments transaction engine

A shallow embedding of the two core components of the payments repository:

* `make_input_record` (src/input.rs): validates one raw CSV row into a typed
  transaction record, or rejects it;
* `make_client_output_records` (src/output.rs): replays the validated record
  sequence against per-client account state and returns the final balances.

Modelling conventions:

* Rust `u16`/`u32` identifiers become `Nat` (the validator enforces the ranges).
* Rust `f64` amounts become `Rat`, read exactly from their decimal literals;
  non-finite literals (`inf`, `nan`) are outside the model.
* Rust's `HashMap<u16, OutputRecord>` becomes an association list with unique
  keys; `insert` of a fresh key appends, `get_mut` updates in place.
* A Rust panic (`Option::unwrap` on `None`) is modelled by the step function
  returning `none`; every non-panicking path returns `some`.
-/

/-- All possible transaction types (src/input.rs, `TransactionType`). -/
inductive TransactionType where
  | Deposit
  | Withdrawal
  | Dispute
  | Resolve
  | Chargeback
deriving DecidableEq, Repr

/-- One validated row of the input CSV file (src/input.rs, `InputRecord`). -/
structure InputRecord where
  type : TransactionType
  client : Nat
  tx : Nat
  amount : Option Rat
deriving DecidableEq, Repr

/-- Value of an ASCII decimal digit, `none` on any other character. -/
def decDigit (c : Char) : Option Nat :=
  if '0' ≤ c ∧ c ≤ '9' then some (c.toNat - '0'.toNat) else none

/-- Accumulate the value of a digit string; fails on the first non-digit. -/
def digitsVal : List Char → Nat → Option Nat
  | [], acc => some acc
  | c :: cs, acc =>
    match decDigit c with
    | some d => digitsVal cs (acc * 10 + d)
    | none => none

/-- Embedding of Rust `str::parse` at an unsigned integer type with maximum
value `bound`: an optional leading `'+'` (never `'-'`), then one or more
decimal digits whose value fits the bound; anything else is rejected. -/
def parseUnsigned (bound : Nat) (s : String) : Option Nat :=
  let cs : List Char :=
    match s.toList with
    | '+' :: rest => rest
    | cs => cs
  match cs with
  | [] => none
  | _ :: _ =>
    match digitsVal cs 0 with
    | some n => if n ≤ bound then some n else none
    | none => none

/-- Rust `str::parse::<u16>`. -/
def parse_u16 (s : String) : Option Nat := parseUnsigned 65535 s

/-- Rust `str::parse::<u32>`. -/
def parse_u32 (s : String) : Option Nat := parseUnsigned 4294967295 s

/-- Longest leading run of decimal digits, with the remaining characters. -/
def takeDigits : List Char → List Nat × List Char
  | [] => ([], [])
  | c :: cs =>
    match decDigit c with
    | some d =>
      let (ds, rest) := takeDigits cs
      (d :: ds, rest)
    | none => ([], c :: cs)

/-- Value of a digit list read most-significant first. -/
def digitsToNat (ds : List Nat) : Nat := ds.foldl (fun acc d => acc * 10 + d) 0

/-- The optional exponent tail of a float literal: empty means exponent 0;
otherwise `e`/`E`, an optional sign, and one or more digits consuming the
whole remainder. -/
def parseExpPart : List Char → Option Int
  | [] => some 0
  | c :: cs =>
    if c = 'e' ∨ c = 'E' then
      let (neg, cs2) : Bool × List Char :=
        match cs with
        | '-' :: rest => (true, rest)
        | '+' :: rest => (false, rest)
        | rest => (false, rest)
      match takeDigits cs2 with
      | ([], _) => none
      | (_, _ :: _) => none
      | (ds, []) =>
        some (if neg then -(digitsToNat ds : Int) else (digitsToNat ds : Int))
    else none

/-- `10 ^ e` in `Rat` for an integer exponent. -/
def pow10Z (e : Int) : Rat :=
  match e with
  | Int.ofNat n => (10 : Rat) ^ n
  | Int.negSucc n => 1 / (10 : Rat) ^ (n + 1)

/-- Embedding of Rust `str::parse::<f64>` read in exact rational arithmetic:
an optional sign, then either `digits [. digits]` or `. digits`, then an
optional exponent. Non-finite literals (`inf`, `nan`) are outside the model. -/
def parse_f64 (s : String) : Option Rat :=
  let (neg, cs) : Bool × List Char :=
    match s.toList with
    | '-' :: rest => (true, rest)
    | '+' :: rest => (false, rest)
    | rest => (false, rest)
  let (ip, rest1) := takeDigits cs
  let core : Option (Rat × List Char) :=
    match rest1 with
    | '.' :: rest2 =>
      let (fp, rest3) := takeDigits rest2
      if ip.isEmpty ∧ fp.isEmpty then none
      else
        some ((digitsToNat ip : Rat) + (digitsToNat fp : Rat) / (10 : Rat) ^ fp.length,
          rest3)
    | _ =>
      if ip.isEmpty then none else some ((digitsToNat ip : Rat), rest1)
  match core with
  | none => none
  | some (v, rest) =>
    match parseExpPart rest with
    | none => none
    | some e => some ((if neg then -v else v) * pow10Z e)

/-- The `to_lowercase` + five-way match at the head of `make_input_record`. -/
def parseTransactionType (s : String) : Option TransactionType :=
  let lower := s.toList.map Char.toLower
  if lower = "deposit".toList then some TransactionType.Deposit
  else if lower = "withdrawal".toList then some TransactionType.Withdrawal
  else if lower = "dispute".toList then some TransactionType.Dispute
  else if lower = "resolve".toList then some TransactionType.Resolve
  else if lower = "chargeback".toList then some TransactionType.Chargeback
  else none

/-- Embedding of `make_input_record` (src/input.rs): processes each column of
the raw row (a position-addressable sequence of fields) and returns `none` as
soon as one cannot be read. The source's column-count check matches the length
against 4 under an exhaustive match on all five types, which collapses to the
single equality test here. Field 3 falls back to an absent amount for the
dispute-family types, and rejects the row for Deposit/Withdrawal. -/
def make_input_record (s_record : List String) : Option InputRecord :=
  match s_record[0]? with
  | none => none
  | some s0 =>
    match parseTransactionType s0 with
    | none => none
    | some transaction_type =>
      if s_record.length = 4 then
        match s_record[1]? with
        | none => none
        | some s1 =>
          match parse_u16 s1 with
          | none => none
          | some client_id =>
            match s_record[2]? with
            | none => none
            | some s2 =>
              match parse_u32 s2 with
              | none => none
              | some transaction_id =>
                let amount : Option (Option Rat) :=
                  match s_record[3]? with
                  | some s3 =>
                    match parse_f64 s3 with
                    | some v => some (some v)
                    | none =>
                      match transaction_type with
                      | TransactionType.Dispute => some none
                      | TransactionType.Resolve => some none
                      | TransactionType.Chargeback => some none
                      | _ => none
                  | none =>
                    match transaction_type with
                    | TransactionType.Dispute => some none
                    | TransactionType.Resolve => some none
                    | TransactionType.Chargeback => some none
                    | _ => none
                match amount with
                | none => none
                | some amt =>
                  some ⟨transaction_type, client_id, transaction_id, amt⟩
      else none

/-- One processed client balance (src/output.rs, `OutputRecord`). -/
structure OutputRecord where
  client : Nat
  available : Rat
  held : Rat
  total : Rat
  locked : Bool
deriving DecidableEq, Repr

/-- `OutputRecord::new` (src/output.rs). -/
def OutputRecord.new (client : Nat) (available held total : Rat) (locked : Bool) :
    OutputRecord :=
  ⟨client, available, held, total, locked⟩

/-- The all-zero record produced by the derived `Default` (never reached on
a non-panicking path; it backs the total lookup function `getA`). -/
def OutputRecord.zero : OutputRecord := ⟨0, 0, 0, 0, false⟩

/-- The engine's `HashMap<u16, OutputRecord>`, as an association list whose
keys are unique on every reachable state. -/
abbrev AccountMap : Type := List (Nat × OutputRecord)

/-- `HashMap::contains_key`. -/
def containsKey : AccountMap → Nat → Bool
  | [], _ => false
  | p :: rest, c => if p.1 = c then true else containsKey rest c

/-- `HashMap::get` / `get_mut` read side, totalised with `OutputRecord.zero`;
the engine only reads it under a `containsKey` guard. -/
def getA : AccountMap → Nat → OutputRecord
  | [], _ => OutputRecord.zero
  | p :: rest, c => if p.1 = c then p.2 else getA rest c

/-- In-place mutation through `get_mut`: rewrite the entry at key `c`. -/
def updAcct : AccountMap → Nat → (OutputRecord → OutputRecord) → AccountMap
  | [], _, _ => []
  | p :: rest, c, f =>
    if p.1 = c then (p.1, f p.2) :: updAcct rest c f
    else p :: updAcct rest c f

/-- `HashMap::insert` of a key not yet present. -/
def insertAcct (m : AccountMap) (c : Nat) (v : OutputRecord) : AccountMap :=
  m ++ [(c, v)]

/-- Embedding of `get_transaction_amount` (src/output.rs): scan of the whole
record sequence for the first record matching `(client, tx)` that carries an
amount. -/
def get_transaction_amount : List InputRecord → Nat → Nat → Option Rat
  | [], _, _ => none
  | record :: rest, client, transaction_id =>
    if record.client = client ∧ record.tx = transaction_id then
      match record.amount with
      | some amt => some amt
      | none => get_transaction_amount rest client transaction_id
    else get_transaction_amount rest client transaction_id

/-- Embedding of `check_dispute` (src/output.rs): does any record of kind
Dispute with this `(client, tx)` exist in the sequence? -/
def check_dispute : List InputRecord → Nat → Nat → Bool
  | [], _, _ => false
  | record :: rest, client, transaction_id =>
    if record.type = TransactionType.Dispute ∧ record.client = client ∧
        record.tx = transaction_id then
      true
    else check_dispute rest client transaction_id

/-- The loop body of `make_client_output_records`: apply one record to the
account map. `none` models a Rust panic — the only panic sites are the
`record.amount.unwrap()` calls on the Deposit branch and on the guarded
Withdrawal branch; every other path is total. -/
def applyRecord (input_records : List InputRecord) (output : AccountMap)
    (record : InputRecord) : Option AccountMap :=
  match record.type with
  | TransactionType.Deposit =>
    match record.amount with
    | none => none
    | some amt =>
      if containsKey output record.client then
        some (updAcct output record.client fun a =>
          { a with available := a.available + amt, total := a.total + amt })
      else
        some (insertAcct output record.client
          (OutputRecord.new record.client amt 0 amt false))
  | TransactionType.Withdrawal =>
    if containsKey output record.client then
      match record.amount with
      | none => none
      | some amt =>
        if amt ≤ (getA output record.client).available then
          some (updAcct output record.client fun a =>
            { a with available := a.available - amt, total := a.total - amt })
        else some output
    else some output
  | TransactionType.Dispute =>
    if containsKey output record.client then
      match get_transaction_amount input_records record.client record.tx with
      | some transaction =>
        some (updAcct output record.client fun a =>
          { a with available := a.available - transaction,
                   held := a.held + transaction })
      | none => some output
    else some output
  | TransactionType.Resolve =>
    if containsKey output record.client then
      match get_transaction_amount input_records record.client record.tx with
      | some transaction =>
        if check_dispute input_records record.client record.tx then
          some (updAcct output record.client fun a =>
            { a with available := a.available + transaction,
                     held := a.held - transaction })
        else some output
      | none => some output
    else some output
  | TransactionType.Chargeback =>
    if containsKey output record.client then
      match get_transaction_amount input_records record.client record.tx with
      | some transaction =>
        some (updAcct output record.client fun a =>
          { a with total := a.total - transaction,
                   held := a.held - transaction,
                   locked := true })
      | none => some output
    else some output

/-- The main loop of `make_client_output_records`, folding `applyRecord` over
a record list; `input_records` stays the full sequence used for lookups. -/
def processRecords (input_records : List InputRecord) :
    List InputRecord → AccountMap → Option AccountMap
  | [], output => some output
  | record :: rest, output =>
    match applyRecord input_records output record with
    | none => none
    | some output2 => processRecords input_records rest output2

/-- Embedding of `make_client_output_records` (src/output.rs): process the
whole sequence from the empty map and dump the map's values. -/
def make_client_output_records (input_records : List InputRecord) :
    Option (List OutputRecord) :=
  match processRecords input_records input_records [] with
  | none => none
  | some output => some (output.map Prod.snd)

/-- A record is validated when some raw row produces it. -/
def Validated (r : InputRecord) : Prop :=
  ∃ row, make_input_record row = some r

/-- The shape guarantee the engine needs from the validator: Deposit and
Withdrawal records carry an amount. -/
def amountOk (r : InputRecord) : Bool :=
  match r.type, r.amount with
  | TransactionType.Deposit, none => false
  | TransactionType.Withdrawal, none => false
  | _, _ => true

/-- Does some Deposit record for client `c` occur in the list? -/
def hasDeposit : List InputRecord → Nat → Bool
  | [], _ => false
  | r :: rest, c =>
    if r.type = TransactionType.Deposit ∧ r.client = c then true
    else hasDeposit rest c

/-- The spec's account invariant, on every entry of the map. -/
def invMap (m : AccountMap) : Prop :=
  ∀ p ∈ m, p.2.total = p.2.available + p.2.held

/-- The spec's per-kind precondition table (§4.2): when it is false the
record is a silent no-op. -/
def precondMet (input : List InputRecord) (m : AccountMap) (r : InputRecord) :
    Bool :=
  match r.type with
  | TransactionType.Deposit => true
  | TransactionType.Withdrawal =>
    containsKey m r.client &&
      (match r.amount with
        | some a => decide (a ≤ (getA m r.client).available)
        | none => false)
  | TransactionType.Dispute =>
    containsKey m r.client && (get_transaction_amount input r.client r.tx).isSome
  | TransactionType.Resolve =>
    containsKey m r.client && (get_transaction_amount input r.client r.tx).isSome &&
      check_dispute input r.client r.tx
  | TransactionType.Chargeback =>
    containsKey m r.client && (get_transaction_amount input r.client r.tx).isSome

/-- Well-formedness of the account map, as the `HashMap` guarantees it: keys
are unique and each stored record carries its own key as its client field. -/
def WFmap (m : AccountMap) : Prop :=
  (m.map Prod.fst).Nodup ∧ ∀ p ∈ m, p.2.client = p.1

/-- How many of the produced output records belong to client `c`. -/
def countClient (out : List OutputRecord) (c : Nat) : Nat :=
  (out.filter fun o => decide (o.client = c)).length

/-- Sample deposit record, as validated from the row `deposit,1,1,5`. -/
def sampleDeposit : InputRecord := ⟨TransactionType.Deposit, 1, 1, some 5⟩

/-- Sample withdrawal record, as validated from the row `withdrawal,1,2,3`. -/
def sampleWithdrawal : InputRecord := ⟨TransactionType.Withdrawal, 1, 2, some 3⟩

/-- Sample dispute record, as validated from the row `dispute,1,1,`. -/
def sampleDispute : InputRecord := ⟨TransactionType.Dispute, 1, 1, none⟩

/-- Sample resolve record, as validated from the row `resolve,1,1,`. -/
def sampleResolve : InputRecord := ⟨TransactionType.Resolve, 1, 1, none⟩

/-- Sample chargeback record, as validated from the row `chargeback,1,1,`. -/
def sampleChargeback : InputRecord := ⟨TransactionType.Chargeback, 1, 1, none⟩

/-- The account state after `sampleDeposit` alone. -/
def sampleAccount : OutputRecord := OutputRecord.new 1 5 0 5 false

/-! ## Lemmas about the account-map operations -/

theorem containsKey_updAcct (m : AccountMap) (c c' : Nat)
    (f : OutputRecord → OutputRecord) :
    containsKey (updAcct m c f) c' = containsKey m c' := by
  induction m with
  | nil => rfl
  | cons p rest ih =>
    by_cases h : p.1 = c <;> simp [updAcct, h, containsKey, ih]

theorem getA_updAcct_self (m : AccountMap) (c : Nat)
    (f : OutputRecord → OutputRecord) (h : containsKey m c = true) :
    getA (updAcct m c f) c = f (getA m c) := by
  induction m with
  | nil => simp [containsKey] at h
  | cons p rest ih =>
    by_cases hp : p.1 = c
    · simp [updAcct, hp, getA]
    · have h' : containsKey rest c = true := by
        simpa [containsKey, hp] using h
      simp [updAcct, hp, getA, ih h']

theorem getA_updAcct_ne (m : AccountMap) (c c' : Nat)
    (f : OutputRecord → OutputRecord) (h : c' ≠ c) :
    getA (updAcct m c f) c' = getA m c' := by
  induction m with
  | nil => rfl
  | cons p rest ih =>
    by_cases hp : p.1 = c
    · subst hp
      have hne : ¬ p.1 = c' := fun hc => h hc.symm
      simp [updAcct, getA, hne, ih]
    · by_cases hq : p.1 = c' <;> simp [updAcct, hp, getA, hq, ih, h]

theorem updAcct_updAcct (m : AccountMap) (c : Nat)
    (f g : OutputRecord → OutputRecord) :
    updAcct (updAcct m c f) c g = updAcct m c (fun a => g (f a)) := by
  induction m with
  | nil => rfl
  | cons p rest ih =>
    by_cases hp : p.1 = c <;> simp [updAcct, hp, ih]

theorem updAcct_congr_id (m : AccountMap) (c : Nat)
    (f : OutputRecord → OutputRecord) (h : ∀ a, f a = a) :
    updAcct m c f = m := by
  induction m with
  | nil => rfl
  | cons p rest ih =>
    rcases p with ⟨k, v⟩
    by_cases hp : k = c <;> simp [updAcct, hp, ih, h]

theorem containsKey_insertAcct (m : AccountMap) (c c' : Nat) (v : OutputRecord) :
    containsKey (insertAcct m c v) c' = (containsKey m c' || c = c') := by
  induction m with
  | nil => simp [insertAcct, containsKey]
  | cons p rest ih =>
    simp only [insertAcct, List.cons_append] at ih ⊢
    by_cases hp : p.1 = c' <;> simp [containsKey, hp, ih]

/-! ## Branch equations for the loop body -/

theorem applyRecord_deposit_absent {input : List InputRecord} {m : AccountMap}
    {r : InputRecord} {amt : Rat} (hr : r.type = TransactionType.Deposit)
    (ha : r.amount = some amt) (hc : containsKey m r.client = false) :
    applyRecord input m r =
      some (insertAcct m r.client (OutputRecord.new r.client amt 0 amt false)) := by
  simp [applyRecord, hr, ha, hc]

theorem applyRecord_deposit_present {input : List InputRecord} {m : AccountMap}
    {r : InputRecord} {amt : Rat} (hr : r.type = TransactionType.Deposit)
    (ha : r.amount = some amt) (hc : containsKey m r.client = true) :
    applyRecord input m r =
      some (updAcct m r.client fun a =>
        { a with available := a.available + amt, total := a.total + amt }) := by
  simp [applyRecord, hr, ha, hc]

theorem applyRecord_deposit_panic {input : List InputRecord} {m : AccountMap}
    {r : InputRecord} (hr : r.type = TransactionType.Deposit)
    (ha : r.amount = none) :
    applyRecord input m r = none := by
  simp [applyRecord, hr, ha]

theorem applyRecord_withdrawal_absent {input : List InputRecord} {m : AccountMap}
    {r : InputRecord} (hr : r.type = TransactionType.Withdrawal)
    (hc : containsKey m r.client = false) :
    applyRecord input m r = some m := by
  simp [applyRecord, hr, hc]

theorem applyRecord_withdrawal_panic {input : List InputRecord} {m : AccountMap}
    {r : InputRecord} (hr : r.type = TransactionType.Withdrawal)
    (ha : r.amount = none) (hc : containsKey m r.client = true) :
    applyRecord input m r = none := by
  simp [applyRecord, hr, ha, hc]

theorem applyRecord_withdrawal_le {input : List InputRecord} {m : AccountMap}
    {r : InputRecord} {amt : Rat} (hr : r.type = TransactionType.Withdrawal)
    (ha : r.amount = some amt) (hc : containsKey m r.client = true)
    (hle : amt ≤ (getA m r.client).available) :
    applyRecord input m r =
      some (updAcct m r.client fun a =>
        { a with available := a.available - amt, total := a.total - amt }) := by
  simp [applyRecord, hr, ha, hc, hle]

theorem applyRecord_withdrawal_gt {input : List InputRecord} {m : AccountMap}
    {r : InputRecord} {amt : Rat} (hr : r.type = TransactionType.Withdrawal)
    (ha : r.amount = some amt) (hc : containsKey m r.client = true)
    (hgt : ¬ amt ≤ (getA m r.client).available) :
    applyRecord input m r = some m := by
  simp [applyRecord, hr, ha, hc, hgt]

theorem applyRecord_dispute_absent {input : List InputRecord} {m : AccountMap}
    {r : InputRecord} (hr : r.type = TransactionType.Dispute)
    (hc : containsKey m r.client = false) :
    applyRecord input m r = some m := by
  simp [applyRecord, hr, hc]

theorem applyRecord_dispute_nolookup {input : List InputRecord} {m : AccountMap}
    {r : InputRecord} (hr : r.type = TransactionType.Dispute)
    (ht : get_transaction_amount input r.client r.tx = none) :
    applyRecord input m r = some m := by
  by_cases hc : containsKey m r.client = true
  · simp [applyRecord, hr, hc, ht]
  · simp [applyRecord, hr, Bool.of_not_eq_true hc]

theorem applyRecord_dispute_apply {input : List InputRecord} {m : AccountMap}
    {r : InputRecord} {amt : Rat} (hr : r.type = TransactionType.Dispute)
    (hc : containsKey m r.client = true)
    (ht : get_transaction_amount input r.client r.tx = some amt) :
    applyRecord input m r =
      some (updAcct m r.client fun a =>
        { a with available := a.available - amt, held := a.held + amt }) := by
  simp [applyRecord, hr, hc, ht]

theorem applyRecord_resolve_absent {input : List InputRecord} {m : AccountMap}
    {r : InputRecord} (hr : r.type = TransactionType.Resolve)
    (hc : containsKey m r.client = false) :
    applyRecord input m r = some m := by
  simp [applyRecord, hr, hc]

theorem applyRecord_resolve_nolookup {input : List InputRecord} {m : AccountMap}
    {r : InputRecord} (hr : r.type = TransactionType.Resolve)
    (ht : get_transaction_amount input r.client r.tx = none) :
    applyRecord input m r = some m := by
  by_cases hc : containsKey m r.client = true
  · simp [applyRecord, hr, hc, ht]
  · simp [applyRecord, hr, Bool.of_not_eq_true hc]

theorem applyRecord_resolve_nodispute {input : List InputRecord} {m : AccountMap}
    {r : InputRecord} (hr : r.type = TransactionType.Resolve)
    (hd : check_dispute input r.client r.tx = false) :
    applyRecord input m r = some m := by
  by_cases hc : containsKey m r.client = true
  · cases ht : get_transaction_amount input r.client r.tx with
    | none => simp [applyRecord, hr, hc, ht]
    | some amt => simp [applyRecord, hr, hc, ht, hd]
  · simp [applyRecord, hr, Bool.of_not_eq_true hc]

theorem applyRecord_resolve_apply {input : List InputRecord} {m : AccountMap}
    {r : InputRecord} {amt : Rat} (hr : r.type = TransactionType.Resolve)
    (hc : containsKey m r.client = true)
    (ht : get_transaction_amount input r.client r.tx = some amt)
    (hd : check_dispute input r.client r.tx = true) :
    applyRecord input m r =
      some (updAcct m r.client fun a =>
        { a with available := a.available + amt, held := a.held - amt }) := by
  simp [applyRecord, hr, hc, ht, hd]

theorem applyRecord_chargeback_absent {input : List InputRecord} {m : AccountMap}
    {r : InputRecord} (hr : r.type = TransactionType.Chargeback)
    (hc : containsKey m r.client = false) :
    applyRecord input m r = some m := by
  simp [applyRecord, hr, hc]

theorem applyRecord_chargeback_nolookup {input : List InputRecord} {m : AccountMap}
    {r : InputRecord} (hr : r.type = TransactionType.Chargeback)
    (ht : get_transaction_amount input r.client r.tx = none) :
    applyRecord input m r = some m := by
  by_cases hc : containsKey m r.client = true
  · simp [applyRecord, hr, hc, ht]
  · simp [applyRecord, hr, Bool.of_not_eq_true hc]

theorem applyRecord_chargeback_apply {input : List InputRecord} {m : AccountMap}
    {r : InputRecord} {amt : Rat} (hr : r.type = TransactionType.Chargeback)
    (hc : containsKey m r.client = true)
    (ht : get_transaction_amount input r.client r.tx = some amt) :
    applyRecord input m r =
      some (updAcct m r.client fun a =>
        { a with total := a.total - amt, held := a.held - amt, locked := true }) := by
  simp [applyRecord, hr, hc, ht]

/-! ## The balance invariant (total = available + held) -/

theorem invMap_nil : invMap [] := by
  intro p hp
  cases hp

theorem invMap_updAcct {m : AccountMap} {c : Nat} {f : OutputRecord → OutputRecord}
    (hm : invMap m)
    (hf : ∀ a : OutputRecord, a.total = a.available + a.held →
      (f a).total = (f a).available + (f a).held) :
    invMap (updAcct m c f) := by
  induction m with
  | nil => exact invMap_nil
  | cons p rest ih =>
    have hp : p.2.total = p.2.available + p.2.held := hm p (List.mem_cons_self p rest)
    have hrest : invMap rest := fun q hq => hm q (List.mem_cons_of_mem p hq)
    by_cases h : p.1 = c
    · intro q hq
      simp only [updAcct, if_pos h] at hq
      rcases List.mem_cons.mp hq with hq | hq
      · rw [hq]; exact hf p.2 hp
      · exact ih hrest q hq
    · intro q hq
      simp only [updAcct, if_neg h] at hq
      rcases List.mem_cons.mp hq with hq | hq
      · rw [hq]; exact hp
      · exact ih hrest q hq

theorem invMap_insertAcct {m : AccountMap} {c : Nat} {v : OutputRecord}
    (hm : invMap m) (hv : v.total = v.available + v.held) :
    invMap (insertAcct m c v) := by
  intro p hp
  rcases List.mem_append.mp hp with hp | hp
  · exact hm p hp
  · rcases List.mem_singleton.mp hp with rfl
    exact hv

theorem applyRecord_invMap {input : List InputRecord} {m m' : AccountMap}
    {r : InputRecord} (hm : invMap m) (h : applyRecord input m r = some m') :
    invMap m' := by
  cases hr : r.type
  case Deposit =>
    cases ha : r.amount with
    | none => rw [applyRecord_deposit_panic hr ha] at h; cases h
    | some amt =>
      cases hc : containsKey m r.client with
      | false =>
        rw [applyRecord_deposit_absent hr ha hc] at h
        obtain rfl := Option.some.inj h
        exact invMap_insertAcct hm (by simp [OutputRecord.new])
      | true =>
        rw [applyRecord_deposit_present hr ha hc] at h
        obtain rfl := Option.some.inj h
        refine invMap_updAcct hm fun a hinv => ?_
        show a.total + amt = (a.available + amt) + a.held
        rw [hinv]; ring
  case Withdrawal =>
    cases hc : containsKey m r.client with
    | false =>
      rw [applyRecord_withdrawal_absent hr hc] at h
      obtain rfl := Option.some.inj h; exact hm
    | true =>
      cases ha : r.amount with
      | none => rw [applyRecord_withdrawal_panic hr ha hc] at h; cases h
      | some amt =>
        by_cases hle : amt ≤ (getA m r.client).available
        · rw [applyRecord_withdrawal_le hr ha hc hle] at h
          obtain rfl := Option.some.inj h
          refine invMap_updAcct hm fun a hinv => ?_
          show a.total - amt = (a.available - amt) + a.held
          rw [hinv]; ring
        · rw [applyRecord_withdrawal_gt hr ha hc hle] at h
          obtain rfl := Option.some.inj h; exact hm
  case Dispute =>
    cases hc : containsKey m r.client with
    | false =>
      rw [applyRecord_dispute_absent hr hc] at h
      obtain rfl := Option.some.inj h; exact hm
    | true =>
      cases ht : get_transaction_amount input r.client r.tx with
      | none =>
        rw [applyRecord_dispute_nolookup hr ht] at h
        obtain rfl := Option.some.inj h; exact hm
      | some amt =>
        rw [applyRecord_dispute_apply hr hc ht] at h
        obtain rfl := Option.some.inj h
        refine invMap_updAcct hm fun a hinv => ?_
        show a.total = (a.available - amt) + (a.held + amt)
        rw [hinv]; ring
  case Resolve =>
    cases hc : containsKey m r.client with
    | false =>
      rw [applyRecord_resolve_absent hr hc] at h
      obtain rfl := Option.some.inj h; exact hm
    | true =>
      cases ht : get_transaction_amount input r.client r.tx with
      | none =>
        rw [applyRecord_resolve_nolookup hr ht] at h
        obtain rfl := Option.some.inj h; exact hm
      | some amt =>
        cases hd : check_dispute input r.client r.tx with
        | false =>
          rw [applyRecord_resolve_nodispute hr hd] at h
          obtain rfl := Option.some.inj h; exact hm
        | true =>
          rw [applyRecord_resolve_apply hr hc ht hd] at h
          obtain rfl := Option.some.inj h
          refine invMap_updAcct hm fun a hinv => ?_
          show a.total = (a.available + amt) + (a.held - amt)
          rw [hinv]; ring
  case Chargeback =>
    cases hc : containsKey m r.client with
    | false =>
      rw [applyRecord_chargeback_absent hr hc] at h
      obtain rfl := Option.some.inj h; exact hm
    | true =>
      cases ht : get_transaction_amount input r.client r.tx with
      | none =>
        rw [applyRecord_chargeback_nolookup hr ht] at h
        obtain rfl := Option.some.inj h; exact hm
      | some amt =>
        rw [applyRecord_chargeback_apply hr hc ht] at h
        obtain rfl := Option.some.inj h
        refine invMap_updAcct hm fun a hinv => ?_
        show a.total - amt = a.available + (a.held - amt)
        rw [hinv]; ring

theorem processRecords_invMap {input : List InputRecord} :
    ∀ {rs : List InputRecord} {m m' : AccountMap}, invMap m →
      processRecords input rs m = some m' → invMap m' := by
  intro rs
  induction rs with
  | nil =>
    intro m m' hm h
    obtain rfl := Option.some.inj h
    exact hm
  | cons r rest ih =>
    intro m m' hm h
    cases happ : applyRecord input m r with
    | none => simp [processRecords, happ] at h
    | some m2 =>
      simp only [processRecords, happ] at h
      exact ih (applyRecord_invMap hm happ) h

theorem processRecords_append (input as bs : List InputRecord) (m : AccountMap) :
    processRecords input (as ++ bs) m =
      match processRecords input as m with
      | none => none
      | some m2 => processRecords input bs m2 := by
  induction as generalizing m with
  | nil => simp [processRecords]
  | cons r rest ih =>
    cases happ : applyRecord input m r with
    | none => simp [processRecords, happ]
    | some m2 => simp [processRecords, happ, ih]

/-! ## Totality and the no-op fallback -/

theorem applyRecord_total {input : List InputRecord} {m : AccountMap}
    {r : InputRecord} (hok : amountOk r = true) :
    (applyRecord input m r).isSome := by
  cases hr : r.type
  case Deposit =>
    cases ha : r.amount with
    | none => simp [amountOk, hr, ha] at hok
    | some amt =>
      cases hc : containsKey m r.client with
      | false => rw [applyRecord_deposit_absent hr ha hc]; rfl
      | true => rw [applyRecord_deposit_present hr ha hc]; rfl
  case Withdrawal =>
    cases hc : containsKey m r.client with
    | false => rw [applyRecord_withdrawal_absent hr hc]; rfl
    | true =>
      cases ha : r.amount with
      | none => simp [amountOk, hr, ha] at hok
      | some amt =>
        by_cases hle : amt ≤ (getA m r.client).available
        · rw [applyRecord_withdrawal_le hr ha hc hle]; rfl
        · rw [applyRecord_withdrawal_gt hr ha hc hle]; rfl
  case Dispute =>
    cases hc : containsKey m r.client with
    | false => rw [applyRecord_dispute_absent hr hc]; rfl
    | true =>
      cases ht : get_transaction_amount input r.client r.tx with
      | none => rw [applyRecord_dispute_nolookup hr ht]; rfl
      | some amt => rw [applyRecord_dispute_apply hr hc ht]; rfl
  case Resolve =>
    cases hc : containsKey m r.client with
    | false => rw [applyRecord_resolve_absent hr hc]; rfl
    | true =>
      cases ht : get_transaction_amount input r.client r.tx with
      | none => rw [applyRecord_resolve_nolookup hr ht]; rfl
      | some amt =>
        cases hd : check_dispute input r.client r.tx with
        | false => rw [applyRecord_resolve_nodispute hr hd]; rfl
        | true => rw [applyRecord_resolve_apply hr hc ht hd]; rfl
  case Chargeback =>
    cases hc : containsKey m r.client with
    | false => rw [applyRecord_chargeback_absent hr hc]; rfl
    | true =>
      cases ht : get_transaction_amount input r.client r.tx with
      | none => rw [applyRecord_chargeback_nolookup hr ht]; rfl
      | some amt => rw [applyRecord_chargeback_apply hr hc ht]; rfl

theorem processRecords_total {input : List InputRecord} :
    ∀ {rs : List InputRecord} {m : AccountMap},
      (∀ r ∈ rs, amountOk r = true) → (processRecords input rs m).isSome := by
  intro rs
  induction rs with
  | nil => intro m _; rfl
  | cons r rest ih =>
    intro m hok
    have h1 : amountOk r = true := hok r (List.mem_cons_self r rest)
    have h2 : ∀ q ∈ rest, amountOk q = true :=
      fun q hq => hok q (List.mem_cons_of_mem r hq)
    cases happ : applyRecord input m r with
    | none =>
      have h3 : (applyRecord input m r).isSome = true := applyRecord_total h1
      rw [happ] at h3
      cases h3
    | some m2 =>
      simpa only [processRecords, happ] using ih h2

theorem applyRecord_noop {input : List InputRecord} {m : AccountMap}
    {r : InputRecord} (hok : amountOk r = true)
    (hpre : precondMet input m r = false) :
    applyRecord input m r = some m := by
  cases hr : r.type
  case Deposit => simp [precondMet, hr] at hpre
  case Withdrawal =>
    cases hc : containsKey m r.client with
    | false => exact applyRecord_withdrawal_absent hr hc
    | true =>
      cases ha : r.amount with
      | none => simp [amountOk, hr, ha] at hok
      | some amt =>
        by_cases hle : amt ≤ (getA m r.client).available
        · simp [precondMet, hr, hc, ha, hle] at hpre
        · exact applyRecord_withdrawal_gt hr ha hc hle
  case Dispute =>
    cases hc : containsKey m r.client with
    | false => exact applyRecord_dispute_absent hr hc
    | true =>
      cases ht : get_transaction_amount input r.client r.tx with
      | none => exact applyRecord_dispute_nolookup hr ht
      | some amt => simp [precondMet, hr, hc, ht] at hpre
  case Resolve =>
    cases hc : containsKey m r.client with
    | false => exact applyRecord_resolve_absent hr hc
    | true =>
      cases ht : get_transaction_amount input r.client r.tx with
      | none => exact applyRecord_resolve_nolookup hr ht
      | some amt =>
        cases hd : check_dispute input r.client r.tx with
        | false => exact applyRecord_resolve_nodispute hr hd
        | true => simp [precondMet, hr, hc, ht, hd] at hpre
  case Chargeback =>
    cases hc : containsKey m r.client with
    | false => exact applyRecord_chargeback_absent hr hc
    | true =>
      cases ht : get_transaction_amount input r.client r.tx with
      | none => exact applyRecord_chargeback_nolookup hr ht
      | some amt => simp [precondMet, hr, hc, ht] at hpre

/-! ## Lookup characterizations -/

theorem get_transaction_amount_eq_find (rs : List InputRecord) (c t : Nat) :
    get_transaction_amount rs c t =
      (rs.find? fun r => decide (r.client = c ∧ r.tx = t ∧ r.amount.isSome)).bind
        InputRecord.amount := by
  induction rs with
  | nil => rfl
  | cons r rest ih =>
    by_cases hm : r.client = c ∧ r.tx = t
    · cases ha : r.amount with
      | none => simp [get_transaction_amount, hm, ha, List.find?, ih]
      | some amt => simp [get_transaction_amount, hm, ha, List.find?]
    · have : ¬ (r.client = c ∧ r.tx = t ∧ r.amount.isSome = true) := by
        intro ⟨h1, h2, _⟩; exact hm ⟨h1, h2⟩
      simp [get_transaction_amount, hm, List.find?, this, ih]

theorem check_dispute_eq_true_iff (rs : List InputRecord) (c t : Nat) :
    check_dispute rs c t = true ↔
      ∃ r ∈ rs, r.type = TransactionType.Dispute ∧ r.client = c ∧ r.tx = t := by
  induction rs with
  | nil => simp [check_dispute]
  | cons r rest ih =>
    by_cases hm : r.type = TransactionType.Dispute ∧ r.client = c ∧ r.tx = t
    · simp only [check_dispute, if_pos hm]
      exact ⟨fun _ => ⟨r, List.mem_cons_self r rest, hm⟩, fun _ => trivial⟩
    · simp only [check_dispute, if_neg hm]
      constructor
      · intro h
        obtain ⟨q, hq, hqp⟩ := ih.mp h
        exact ⟨q, List.mem_cons_of_mem r hq, hqp⟩
      · intro ⟨q, hq, hqp⟩
        rcases List.mem_cons.mp hq with rfl | hq
        · exact absurd hqp hm
        · exact ih.mpr ⟨q, hq, hqp⟩

theorem check_dispute_of_mem {rs : List InputRecord} {d : InputRecord}
    (hd : d ∈ rs) (ht : d.type = TransactionType.Dispute) :
    check_dispute rs d.client d.tx = true :=
  (check_dispute_eq_true_iff rs d.client d.tx).mpr ⟨d, hd, ht, rfl, rfl⟩

/-! ## Lemmas about the validator -/

theorem make_input_record_inversion {row : List String} {r : InputRecord}
    (h : make_input_record row = some r) :
    row[0]?.bind parseTransactionType = some r.type ∧
    row.length = 4 ∧
    row[1]?.bind parse_u16 = some r.client ∧
    row[2]?.bind parse_u32 = some r.tx ∧
    r.amount = row[3]?.bind parse_f64 ∧
    (r.amount = none →
      r.type = TransactionType.Dispute ∨ r.type = TransactionType.Resolve ∨
        r.type = TransactionType.Chargeback) := by
  cases h0 : row[0]? with
  | none => simp [make_input_record, h0] at h
  | some s0 =>
  cases hpt : parseTransactionType s0 with
  | none => simp [make_input_record, h0, hpt] at h
  | some tt =>
  by_cases hlen : row.length = 4
  case neg => simp [make_input_record, h0, hpt, hlen] at h
  case pos =>
  cases h1 : row[1]? with
  | none => simp [make_input_record, h0, hpt, hlen, h1] at h
  | some s1 =>
  cases hp1 : parse_u16 s1 with
  | none => simp [make_input_record, h0, hpt, hlen, h1, hp1] at h
  | some cid =>
  cases h2 : row[2]? with
  | none => simp [make_input_record, h0, hpt, hlen, h1, hp1, h2] at h
  | some s2 =>
  cases hp2 : parse_u32 s2 with
  | none => simp [make_input_record, h0, hpt, hlen, h1, hp1, h2, hp2] at h
  | some tid =>
  cases h3 : row[3]? with
  | none =>
    cases tt <;> simp only [make_input_record, h0, hpt, hlen, h1, hp1, h2, hp2, h3,
      if_true, Option.bind_some, Option.some.injEq, reduceIte] at h <;>
      first
        | exact Option.noConfusion h
        | (obtain rfl := h.symm
           simp [h0, hpt, hlen, h1, hp1, h2, hp2, h3])
  | some s3 =>
  cases hpf : parse_f64 s3 with
  | some v =>
    simp only [make_input_record, h0, hpt, hlen, h1, hp1, h2, hp2, h3, hpf,
      if_true, Option.some.injEq, reduceIte] at h
    obtain rfl := h.symm
    simp [h0, hpt, hlen, h1, hp1, h2, hp2, h3, hpf]
  | none =>
    cases tt <;> simp only [make_input_record, h0, hpt, hlen, h1, hp1, h2, hp2, h3,
      hpf, if_true, Option.some.injEq, reduceIte] at h <;>
      first
        | exact Option.noConfusion h
        | (obtain rfl := h.symm
           simp [h0, hpt, hlen, h1, hp1, h2, hp2, h3, hpf])

theorem make_input_record_none_iff (row : List String) :
    make_input_record row = none ↔
      (row[0]?.bind parseTransactionType = none ∨
       row.length ≠ 4 ∨
       row[1]?.bind parse_u16 = none ∨
       row[2]?.bind parse_u32 = none ∨
       ((row[0]?.bind parseTransactionType = some TransactionType.Deposit ∨
         row[0]?.bind parseTransactionType = some TransactionType.Withdrawal) ∧
        row[3]?.bind parse_f64 = none)) := by
  cases h0 : row[0]? with
  | none => simp [make_input_record, h0]
  | some s0 =>
  cases hpt : parseTransactionType s0 with
  | none => simp [make_input_record, h0, hpt]
  | some tt =>
  by_cases hlen : row.length = 4
  case neg => simp [make_input_record, h0, hpt, hlen]
  case pos =>
  cases h1 : row[1]? with
  | none => simp [make_input_record, h0, hpt, hlen, h1]
  | some s1 =>
  cases hp1 : parse_u16 s1 with
  | none => simp [make_input_record, h0, hpt, hlen, h1, hp1]
  | some cid =>
  cases h2 : row[2]? with
  | none => simp [make_input_record, h0, hpt, hlen, h1, hp1, h2]
  | some s2 =>
  cases hp2 : parse_u32 s2 with
  | none => simp [make_input_record, h0, hpt, hlen, h1, hp1, h2, hp2]
  | some tid =>
  cases h3 : row[3]? with
  | none =>
    cases tt <;> simp [make_input_record, h0, hpt, hlen, h1, hp1, h2, hp2, h3]
  | some s3 =>
  cases hpf : parse_f64 s3 with
  | some v =>
    cases tt <;> simp [make_input_record, h0, hpt, hlen, h1, hp1, h2, hp2, h3, hpf]
  | none =>
    cases tt <;> simp [make_input_record, h0, hpt, hlen, h1, hp1, h2, hp2, h3, hpf]

theorem make_input_record_amountOk {row : List String} {r : InputRecord}
    (h : make_input_record row = some r) : amountOk r = true := by
  obtain ⟨-, -, -, -, hamt, himp⟩ := make_input_record_inversion h
  cases ha : r.amount with
  | some v => cases htt : r.type <;> simp [amountOk, htt, ha]
  | none =>
    rcases himp ha with h1 | h1 | h1 <;> simp [amountOk, h1, ha]

/-! ## Well-formedness of reachable account maps -/

theorem containsKey_iff_mem_keys (m : AccountMap) (c : Nat) :
    containsKey m c = true ↔ c ∈ m.map Prod.fst := by
  induction m with
  | nil => simp [containsKey]
  | cons p rest ih =>
    simp only [List.map_cons, List.mem_cons]
    by_cases hp : p.1 = c
    · simp only [containsKey, if_pos hp]
      exact ⟨fun _ => Or.inl hp.symm, fun _ => trivial⟩
    · simp only [containsKey, if_neg hp]
      constructor
      · intro h; exact Or.inr (ih.mp h)
      · intro h
        rcases h with h | h
        · exact absurd h.symm hp
        · exact ih.mpr h

theorem keys_updAcct (m : AccountMap) (c : Nat) (f : OutputRecord → OutputRecord) :
    (updAcct m c f).map Prod.fst = m.map Prod.fst := by
  induction m with
  | nil => rfl
  | cons p rest ih =>
    by_cases hp : p.1 = c <;> simp [updAcct, hp, ih]

theorem WFmap_nil : WFmap [] :=
  ⟨List.nodup_nil, fun p hp => absurd hp (List.not_mem_nil p)⟩

theorem WFmap_updAcct {m : AccountMap} {c : Nat} {f : OutputRecord → OutputRecord}
    (hw : WFmap m) (hf : ∀ a, (f a).client = a.client) : WFmap (updAcct m c f) := by
  obtain ⟨hkeys, hcli⟩ := hw
  refine ⟨by rw [keys_updAcct]; exact hkeys, ?_⟩
  clear hkeys
  induction m with
  | nil => intro p hp; cases hp
  | cons p rest ih =>
    have hprest : ∀ q ∈ rest, q.2.client = q.1 :=
      fun q hq => hcli q (List.mem_cons_of_mem p hq)
    have hp' : p.2.client = p.1 := hcli p (List.mem_cons_self p rest)
    intro q hq
    by_cases hp : p.1 = c
    · simp only [updAcct, if_pos hp] at hq
      rcases List.mem_cons.mp hq with rfl | hq
      · simpa [hf p.2] using hp'
      · exact ih hprest q hq
    · simp only [updAcct, if_neg hp] at hq
      rcases List.mem_cons.mp hq with rfl | hq
      · exact hp'
      · exact ih hprest q hq

theorem WFmap_insertAcct {m : AccountMap} {c : Nat} {v : OutputRecord}
    (hw : WFmap m) (hc : containsKey m c = false) (hv : v.client = c) :
    WFmap (insertAcct m c v) := by
  obtain ⟨hkeys, hcli⟩ := hw
  have hnot : c ∉ m.map Prod.fst := by
    intro hmem
    rw [← containsKey_iff_mem_keys] at hmem
    rw [hmem] at hc
    cases hc
  constructor
  · simp only [insertAcct, List.map_append, List.map_cons, List.map_nil]
    exact List.Nodup.append hkeys (List.nodup_singleton c)
      (List.disjoint_singleton.mpr hnot)
  · intro p hp
    rcases List.mem_append.mp hp with hp | hp
    · exact hcli p hp
    · rcases List.mem_singleton.mp hp with rfl
      exact hv

theorem applyRecord_WF {input : List InputRecord} {m m' : AccountMap}
    {r : InputRecord} (hw : WFmap m) (h : applyRecord input m r = some m') :
    WFmap m' := by
  cases hr : r.type
  case Deposit =>
    cases ha : r.amount with
    | none => rw [applyRecord_deposit_panic hr ha] at h; cases h
    | some amt =>
      cases hc : containsKey m r.client with
      | false =>
        rw [applyRecord_deposit_absent hr ha hc] at h
        obtain rfl := Option.some.inj h
        exact WFmap_insertAcct hw hc rfl
      | true =>
        rw [applyRecord_deposit_present hr ha hc] at h
        obtain rfl := Option.some.inj h
        exact WFmap_updAcct hw fun a => rfl
  case Withdrawal =>
    cases hc : containsKey m r.client with
    | false =>
      rw [applyRecord_withdrawal_absent hr hc] at h
      obtain rfl := Option.some.inj h; exact hw
    | true =>
      cases ha : r.amount with
      | none => rw [applyRecord_withdrawal_panic hr ha hc] at h; cases h
      | some amt =>
        by_cases hle : amt ≤ (getA m r.client).available
        · rw [applyRecord_withdrawal_le hr ha hc hle] at h
          obtain rfl := Option.some.inj h
          exact WFmap_updAcct hw fun a => rfl
        · rw [applyRecord_withdrawal_gt hr ha hc hle] at h
          obtain rfl := Option.some.inj h; exact hw
  case Dispute =>
    cases hc : containsKey m r.client with
    | false =>
      rw [applyRecord_dispute_absent hr hc] at h
      obtain rfl := Option.some.inj h; exact hw
    | true =>
      cases ht : get_transaction_amount input r.client r.tx with
      | none =>
        rw [applyRecord_dispute_nolookup hr ht] at h
        obtain rfl := Option.some.inj h; exact hw
      | some amt =>
        rw [applyRecord_dispute_apply hr hc ht] at h
        obtain rfl := Option.some.inj h
        exact WFmap_updAcct hw fun a => rfl
  case Resolve =>
    cases hc : containsKey m r.client with
    | false =>
      rw [applyRecord_resolve_absent hr hc] at h
      obtain rfl := Option.some.inj h; exact hw
    | true =>
      cases ht : get_transaction_amount input r.client r.tx with
      | none =>
        rw [applyRecord_resolve_nolookup hr ht] at h
        obtain rfl := Option.some.inj h; exact hw
      | some amt =>
        cases hd : check_dispute input r.client r.tx with
        | false =>
          rw [applyRecord_resolve_nodispute hr hd] at h
          obtain rfl := Option.some.inj h; exact hw
        | true =>
          rw [applyRecord_resolve_apply hr hc ht hd] at h
          obtain rfl := Option.some.inj h
          exact WFmap_updAcct hw fun a => rfl
  case Chargeback =>
    cases hc : containsKey m r.client with
    | false =>
      rw [applyRecord_chargeback_absent hr hc] at h
      obtain rfl := Option.some.inj h; exact hw
    | true =>
      cases ht : get_transaction_amount input r.client r.tx with
      | none =>
        rw [applyRecord_chargeback_nolookup hr ht] at h
        obtain rfl := Option.some.inj h; exact hw
      | some amt =>
        rw [applyRecord_chargeback_apply hr hc ht] at h
        obtain rfl := Option.some.inj h
        exact WFmap_updAcct hw fun a => rfl

theorem processRecords_WF {input : List InputRecord} :
    ∀ {rs : List InputRecord} {m m' : AccountMap}, WFmap m →
      processRecords input rs m = some m' → WFmap m' := by
  intro rs
  induction rs with
  | nil =>
    intro m m' hw h
    obtain rfl := Option.some.inj h
    exact hw
  | cons r rest ih =>
    intro m m' hw h
    cases happ : applyRecord input m r with
    | none => simp [processRecords, happ] at h
    | some m2 =>
      simp only [processRecords, happ] at h
      exact ih (applyRecord_WF hw happ) h

theorem applyRecord_containsKey {input : List InputRecord} {m m' : AccountMap}
    {r : InputRecord} (h : applyRecord input m r = some m') (c : Nat) :
    containsKey m' c = true ↔
      (containsKey m c = true ∨
        (r.type = TransactionType.Deposit ∧ r.client = c)) := by
  cases hr : r.type
  case Deposit =>
    cases ha : r.amount with
    | none => rw [applyRecord_deposit_panic hr ha] at h; cases h
    | some amt =>
      cases hc : containsKey m r.client with
      | false =>
        rw [applyRecord_deposit_absent hr ha hc] at h
        obtain rfl := Option.some.inj h
        rw [containsKey_insertAcct]
        by_cases hcc : r.client = c <;> simp [hcc, hr]
      | true =>
        rw [applyRecord_deposit_present hr ha hc] at h
        obtain rfl := Option.some.inj h
        rw [containsKey_updAcct]
        constructor
        · exact fun hh => Or.inl hh
        · intro hh
          rcases hh with hh | ⟨-, rfl⟩
          · exact hh
          · exact hc
  case Withdrawal =>
    cases hc : containsKey m r.client with
    | false =>
      rw [applyRecord_withdrawal_absent hr hc] at h
      obtain rfl := Option.some.inj h; simp [hr]
    | true =>
      cases ha : r.amount with
      | none => rw [applyRecord_withdrawal_panic hr ha hc] at h; cases h
      | some amt =>
        by_cases hle : amt ≤ (getA m r.client).available
        · rw [applyRecord_withdrawal_le hr ha hc hle] at h
          obtain rfl := Option.some.inj h
          rw [containsKey_updAcct]; simp [hr]
        · rw [applyRecord_withdrawal_gt hr ha hc hle] at h
          obtain rfl := Option.some.inj h; simp [hr]
  case Dispute =>
    cases hc : containsKey m r.client with
    | false =>
      rw [applyRecord_dispute_absent hr hc] at h
      obtain rfl := Option.some.inj h; simp [hr]
    | true =>
      cases ht : get_transaction_amount input r.client r.tx with
      | none =>
        rw [applyRecord_dispute_nolookup hr ht] at h
        obtain rfl := Option.some.inj h; simp [hr]
      | some amt =>
        rw [applyRecord_dispute_apply hr hc ht] at h
        obtain rfl := Option.some.inj h
        rw [containsKey_updAcct]; simp [hr]
  case Resolve =>
    cases hc : containsKey m r.client with
    | false =>
      rw [applyRecord_resolve_absent hr hc] at h
      obtain rfl := Option.some.inj h; simp [hr]
    | true =>
      cases ht : get_transaction_amount input r.client r.tx with
      | none =>
        rw [applyRecord_resolve_nolookup hr ht] at h
        obtain rfl := Option.some.inj h; simp [hr]
      | some amt =>
        cases hd : check_dispute input r.client r.tx with
        | false =>
          rw [applyRecord_resolve_nodispute hr hd] at h
          obtain rfl := Option.some.inj h; simp [hr]
        | true =>
          rw [applyRecord_resolve_apply hr hc ht hd] at h
          obtain rfl := Option.some.inj h
          rw [containsKey_updAcct]; simp [hr]
  case Chargeback =>
    cases hc : containsKey m r.client with
    | false =>
      rw [applyRecord_chargeback_absent hr hc] at h
      obtain rfl := Option.some.inj h; simp [hr]
    | true =>
      cases ht : get_transaction_amount input r.client r.tx with
      | none =>
        rw [applyRecord_chargeback_nolookup hr ht] at h
        obtain rfl := Option.some.inj h; simp [hr]
      | some amt =>
        rw [applyRecord_chargeback_apply hr hc ht] at h
        obtain rfl := Option.some.inj h
        rw [containsKey_updAcct]; simp [hr]

theorem processRecords_containsKey {input : List InputRecord} :
    ∀ {rs : List InputRecord} {m m' : AccountMap},
      processRecords input rs m = some m' → ∀ c,
      (containsKey m' c = true ↔
        (containsKey m c = true ∨ hasDeposit rs c = true)) := by
  intro rs
  induction rs with
  | nil =>
    intro m m' h c
    obtain rfl := Option.some.inj h
    simp [hasDeposit]
  | cons r rest ih =>
    intro m m' h c
    cases happ : applyRecord input m r with
    | none => simp [processRecords, happ] at h
    | some m2 =>
      simp only [processRecords, happ] at h
      rw [ih h c]
      rw [applyRecord_containsKey happ c]
      by_cases hd : r.type = TransactionType.Deposit ∧ r.client = c <;>
        simp [hasDeposit, hd, or_assoc]

theorem countClient_values {m : AccountMap} (hw : WFmap m) (c : Nat) :
    countClient (m.map Prod.snd) c = if containsKey m c = true then 1 else 0 := by
  induction m with
  | nil => simp [countClient, containsKey]
  | cons p rest ih =>
    obtain ⟨hkeys, hcli⟩ := hw
    have hwrest : WFmap rest :=
      ⟨(List.nodup_cons.mp hkeys).2, fun q hq => hcli q (List.mem_cons_of_mem p hq)⟩
    have hpcl : p.2.client = p.1 := hcli p (List.mem_cons_self p rest)
    by_cases hpc : p.1 = c
    · have hmatch : p.2.client = c := by rw [hpcl, hpc]
      have hnotmem : p.1 ∉ rest.map Prod.fst := (List.nodup_cons.mp hkeys).1
      have hck : containsKey rest c = false := by
        rw [← hpc]
        cases h' : containsKey rest p.1 with
        | false => rfl
        | true => exact absurd ((containsKey_iff_mem_keys rest p.1).mp h') hnotmem
      have h0 : countClient (rest.map Prod.snd) c = 0 := by
        rw [ih hwrest, hck]
        simp
      simp [countClient, List.filter_cons, hmatch, containsKey, hpc] at h0 ⊢
      simpa [countClient] using h0
    · have hne : ¬ p.2.client = c := by rw [hpcl]; exact hpc
      simp only [countClient, List.map_cons, List.filter_cons] at ih ⊢
      simp [hne, containsKey, hpc]
      simpa [countClient] using ih hwrest

/-! ## The claims -/

/-- Claim C1: for every sequence of validated records, every account state
reachable during the left-to-right pass of `make_client_output_records` — in
particular every final `OutputRecord` — satisfies `total = available + held`
in exact arithmetic, and the equality is preserved by every transition,
including a Chargeback applied with no prior Dispute. -/
theorem c1_balance_invariant :
    (∀ (input rs : List InputRecord) (m m' : AccountMap),
        invMap m → processRecords input rs m = some m' → invMap m') ∧
    (∀ (input pre suf : List InputRecord) (m' : AccountMap),
        input = pre ++ suf → processRecords input pre [] = some m' → invMap m') ∧
    (∀ (input : List InputRecord) (out : List OutputRecord),
        make_client_output_records input = some out →
        ∀ o ∈ out, o.total = o.available + o.held) := by
  refine ⟨?_, ?_, ?_⟩
  · exact fun input rs m m' hm h => processRecords_invMap hm h
  · exact fun input pre suf m' _ h => processRecords_invMap invMap_nil h
  · intro input out h o ho
    unfold make_client_output_records at h
    cases hp : processRecords input input [] with
    | none => rw [hp] at h; cases h
    | some m' =>
      rw [hp] at h
      obtain rfl := Option.some.inj h
      obtain ⟨p, hpmem, rfl⟩ := List.mem_map.mp ho
      exact processRecords_invMap invMap_nil hp p hpmem

/-- Witness for C1 at the concrete one-deposit run. -/
theorem c1_balance_invariant_witness :
    invMap [(1, sampleAccount)] :=
  c1_balance_invariant.1 [sampleDeposit] [sampleDeposit] [] [(1, sampleAccount)]
    invMap_nil
    (by simp +decide [processRecords, applyRecord, containsKey, insertAcct,
      sampleDeposit, sampleAccount, OutputRecord.new])

/-- Claim C10: the engine does not enforce non-negativity of `held`: a Deposit
followed by a Chargeback for the same `(client, tx)` — with no Dispute record
anywhere — ends with `held = -5`, the negation of the charged-back amount. -/
theorem c10_negative_held :
    make_input_record ["deposit", "1", "1", "5"] = some sampleDeposit ∧
    make_input_record ["chargeback", "1", "1", ""] = some sampleChargeback ∧
    check_dispute [sampleDeposit, sampleChargeback] 1 1 = false ∧
    make_client_output_records [sampleDeposit, sampleChargeback] =
      some [⟨1, 5, -5, 0, true⟩] ∧
    (-5 : Rat) < 0 ∧ (-5 : Rat) = -(5 : Rat) := by
  refine ⟨?_, ?_, ?_, ?_, by norm_num, rfl⟩
  · simp +decide [make_input_record, parseTransactionType, parse_u16, parse_u32,
      parseUnsigned, digitsVal, decDigit, parse_f64, takeDigits, digitsToNat,
      parseExpPart, pow10Z, sampleDeposit]
  · simp +decide [make_input_record, parseTransactionType, parse_u16, parse_u32,
      parseUnsigned, digitsVal, decDigit, parse_f64, takeDigits, digitsToNat,
      parseExpPart, pow10Z, sampleChargeback]
  · simp +decide [check_dispute, sampleDeposit, sampleChargeback]
  · simp +decide [make_client_output_records, processRecords, applyRecord,
      containsKey, getA, updAcct, insertAcct, get_transaction_amount,
      check_dispute, OutputRecord.new, sampleDeposit, sampleChargeback]

/-- Counterexample to C2 as stated: the row `dispute,1,1,5.0` is accepted and
its record carries an amount although its kind is Dispute, so amount presence
is not equivalent to being a Deposit/Withdrawal. -/
theorem c2_counterexample :
    make_input_record ["dispute", "1", "1", "5.0"] =
      some ⟨TransactionType.Dispute, 1, 1, some 5⟩ ∧
    ¬ (∀ (row : List String) (r : InputRecord), make_input_record row = some r →
        (r.amount.isSome ↔
          (r.type = TransactionType.Deposit ∨
            r.type = TransactionType.Withdrawal))) := by
  have h : make_input_record ["dispute", "1", "1", "5.0"] =
      some ⟨TransactionType.Dispute, 1, 1, some 5⟩ := by
    simp +decide [make_input_record, parseTransactionType, parse_u16, parse_u32,
      parseUnsigned, digitsVal, decDigit, parse_f64, takeDigits, digitsToNat,
      parseExpPart, pow10Z]
  refine ⟨h, fun hall => ?_⟩
  have h2 := (hall _ _ h).mp (by simp)
  rcases h2 with h2 | h2 <;> simp at h2

/-- Claim C2 (amended): for every raw field-row accepted by
`make_input_record`, the record's amount is present if its kind is Deposit or
Withdrawal; a record of kind Dispute, Resolve, or Chargeback carries an amount
exactly when field 3 of the row parses as a decimal number (it is absent only
when field 3 is absent or unparsable). -/
theorem c2_amount_presence (row : List String) (r : InputRecord)
    (h : make_input_record row = some r) :
    ((r.type = TransactionType.Deposit ∨ r.type = TransactionType.Withdrawal) →
      r.amount.isSome) ∧
    ((r.type = TransactionType.Dispute ∨ r.type = TransactionType.Resolve ∨
        r.type = TransactionType.Chargeback) →
      r.amount = row[3]?.bind parse_f64) := by
  obtain ⟨-, -, -, -, hamt, himp⟩ := make_input_record_inversion h
  constructor
  · intro htt
    cases ha : r.amount with
    | some v => simp
    | none =>
      rcases himp ha with h1 | h1 | h1 <;> rcases htt with h2 | h2 <;>
        rw [h1] at h2 <;> simp at h2
  · exact fun _ => hamt

/-- Witness for the amended C2 at the rows `deposit,1,1,5` and `dispute,1,1,`. -/
theorem c2_amount_presence_witness :
    (sampleDeposit.amount.isSome = true) ∧
    sampleDispute.amount = (["dispute", "1", "1", ""] : List String)[3]?.bind parse_f64 :=
  ⟨(c2_amount_presence ["deposit", "1", "1", "5"] sampleDeposit
      (by simp +decide [make_input_record, parseTransactionType, parse_u16,
        parse_u32, parseUnsigned, digitsVal, decDigit, parse_f64, takeDigits,
        digitsToNat, parseExpPart, pow10Z, sampleDeposit])).1
      (Or.inl rfl),
   (c2_amount_presence ["dispute", "1", "1", ""] sampleDispute
      (by simp +decide [make_input_record, parseTransactionType, parse_u16,
        parse_u32, parseUnsigned, digitsVal, decDigit, parse_f64, takeDigits,
        digitsToNat, parseExpPart, pow10Z, sampleDispute])).2
      (Or.inl rfl)⟩

/-- Claim C3: a Chargeback whose client has an account and whose lookup
succeeds applies its full effect with no dispute requirement at all, whereas a
Resolve is a silent no-op whenever no Dispute record with matching
`(client, tx)` exists anywhere in the sequence, and applies its effect when
one does (and the account and lookup conditions hold). -/
theorem c3_chargeback_resolve_asymmetry :
    (∀ (input : List InputRecord) (m : AccountMap) (r : InputRecord) (a : Rat),
        r.type = TransactionType.Chargeback →
        containsKey m r.client = true →
        get_transaction_amount input r.client r.tx = some a →
        applyRecord input m r =
          some (updAcct m r.client fun x =>
            { x with total := x.total - a, held := x.held - a, locked := true })) ∧
    (∀ (input : List InputRecord) (m : AccountMap) (r : InputRecord),
        r.type = TransactionType.Resolve →
        (¬ ∃ d ∈ input, d.type = TransactionType.Dispute ∧
          d.client = r.client ∧ d.tx = r.tx) →
        applyRecord input m r = some m) ∧
    (∀ (input : List InputRecord) (m : AccountMap) (r : InputRecord) (a : Rat),
        r.type = TransactionType.Resolve →
        containsKey m r.client = true →
        get_transaction_amount input r.client r.tx = some a →
        check_dispute input r.client r.tx = true →
        applyRecord input m r =
          some (updAcct m r.client fun x =>
            { x with available := x.available + a, held := x.held - a })) := by
  refine ⟨?_, ?_, ?_⟩
  · exact fun input m r a hr hc ht => applyRecord_chargeback_apply hr hc ht
  · intro input m r hr hne
    refine applyRecord_resolve_nodispute hr ?_
    cases hd : check_dispute input r.client r.tx with
    | false => rfl
    | true =>
      exact absurd ((check_dispute_eq_true_iff input r.client r.tx).mp hd) hne
  · exact fun input m r a hr hc ht hd => applyRecord_resolve_apply hr hc ht hd

/-- Witness for C3: a chargeback with no dispute anywhere applies its effect;
a resolve with no dispute anywhere is a no-op. -/
theorem c3_chargeback_resolve_asymmetry_witness :
    applyRecord [sampleDeposit, sampleChargeback] [(1, sampleAccount)]
        sampleChargeback =
      some (updAcct [(1, sampleAccount)] sampleChargeback.client fun x =>
        { x with total := x.total - 5, held := x.held - 5, locked := true }) ∧
    applyRecord [sampleDeposit, sampleResolve] [(1, sampleAccount)]
        sampleResolve =
      some [(1, sampleAccount)] :=
  ⟨c3_chargeback_resolve_asymmetry.1 [sampleDeposit, sampleChargeback]
      [(1, sampleAccount)] sampleChargeback 5 rfl (by decide)
      (by simp +decide [get_transaction_amount, sampleDeposit, sampleChargeback]),
   c3_chargeback_resolve_asymmetry.2.1 [sampleDeposit, sampleResolve]
      [(1, sampleAccount)] sampleResolve rfl
      (by simp +decide [sampleDeposit, sampleResolve])⟩

/-- Claim C4: on validated records the engine is total — no transition panics
(the amount unwraps on Deposit/Withdrawal never hit an absent amount), and a
record whose precondition is unmet leaves the whole account map unchanged. -/
theorem c4_engine_total :
    (∀ (input rs : List InputRecord) (m : AccountMap),
        (∀ r ∈ rs, Validated r) → (processRecords input rs m).isSome) ∧
    (∀ input : List InputRecord,
        (∀ r ∈ input, Validated r) → (make_client_output_records input).isSome) ∧
    (∀ (input : List InputRecord) (m : AccountMap) (r : InputRecord),
        Validated r → precondMet input m r = false →
        applyRecord input m r = some m) := by
  have hok : ∀ r : InputRecord, Validated r → amountOk r = true := by
    intro r hv
    obtain ⟨row, hrow⟩ := hv
    exact make_input_record_amountOk hrow
  refine ⟨?_, ?_, ?_⟩
  · intro input rs m hv
    exact processRecords_total fun r hr => hok r (hv r hr)
  · intro input hv
    unfold make_client_output_records
    cases hp : processRecords input input [] with
    | none =>
      have h2 : (processRecords input input ([] : AccountMap)).isSome = true :=
        processRecords_total fun r hr => hok r (hv r hr)
      rw [hp] at h2
      cases h2
    | some m' => rfl
  · exact fun input m r hv hpre => applyRecord_noop (hok r hv) hpre

/-- Witness for C4: the one-deposit pipeline is total, and a withdrawal
against an absent account is a silent no-op. -/
theorem c4_engine_total_witness :
    (make_client_output_records [sampleDeposit]).isSome = true ∧
    applyRecord [sampleWithdrawal] [] sampleWithdrawal = some [] :=
  ⟨c4_engine_total.2.1 [sampleDeposit]
      (by
        intro r hr
        rcases List.mem_singleton.mp hr with rfl
        exact ⟨["deposit", "1", "1", "5"],
          by simp +decide [make_input_record, parseTransactionType, parse_u16,
            parse_u32, parseUnsigned, digitsVal, decDigit, parse_f64, takeDigits,
            digitsToNat, parseExpPart, pow10Z, sampleDeposit]⟩),
   c4_engine_total.2.2 [sampleWithdrawal] [] sampleWithdrawal
      ⟨["withdrawal", "1", "2", "3"],
        by simp +decide [make_input_record, parseTransactionType, parse_u16,
          parse_u32, parseUnsigned, digitsVal, decDigit, parse_f64, takeDigits,
          digitsToNat, parseExpPart, pow10Z, sampleWithdrawal]⟩
      (by decide)⟩

/-- Claim C5: `make_input_record` rejects a row exactly when the type field is
absent or unrecognized, the field count is not 4, the client or tx field fails
its unsigned parse, or the kind is Deposit/Withdrawal with an absent or
unparsable amount; on success the emitted record carries the parsed fields.
The embedding is total, so no row can make it panic. -/
theorem c5_validator_rejection (row : List String) :
    (make_input_record row = none ↔
      (row[0]?.bind parseTransactionType = none ∨
       row.length ≠ 4 ∨
       row[1]?.bind parse_u16 = none ∨
       row[2]?.bind parse_u32 = none ∨
       ((row[0]?.bind parseTransactionType = some TransactionType.Deposit ∨
         row[0]?.bind parseTransactionType = some TransactionType.Withdrawal) ∧
        row[3]?.bind parse_f64 = none))) ∧
    (∀ r : InputRecord, make_input_record row = some r →
      (row[0]?.bind parseTransactionType = some r.type ∧
       row[1]?.bind parse_u16 = some r.client ∧
       row[2]?.bind parse_u32 = some r.tx ∧
       r.amount = row[3]?.bind parse_f64)) := by
  refine ⟨make_input_record_none_iff row, fun r h => ?_⟩
  obtain ⟨h0, -, h1, h2, hamt, -⟩ := make_input_record_inversion h
  exact ⟨h0, h1, h2, hamt⟩

/-- Witness for C5: an unrecognized kind is rejected; a valid deposit row is
parsed into its fields. -/
theorem c5_validator_rejection_witness :
    make_input_record ["bogus", "1", "1", "5"] = none ∧
    (["deposit", "1", "1", "5"] : List String)[1]?.bind parse_u16 = some 1 :=
  ⟨(c5_validator_rejection ["bogus", "1", "1", "5"]).1.mpr
      (Or.inl (by decide)),
   ((c5_validator_rejection ["deposit", "1", "1", "5"]).2 sampleDeposit
      (by simp +decide [make_input_record, parseTransactionType, parse_u16,
        parse_u32, parseUnsigned, digitsVal, decDigit, parse_f64, takeDigits,
        digitsToNat, parseExpPart, pow10Z, sampleDeposit])).2.1⟩

/-- Claim C6: a Withdrawal referencing an absent account, or one whose amount
strictly exceeds the available funds, leaves the whole account map unchanged;
otherwise available and total each drop by exactly the amount while held,
locked, and every other client's account are untouched. -/
theorem c6_withdrawal (input : List InputRecord) (m : AccountMap)
    (r : InputRecord) (a : Rat) (hr : r.type = TransactionType.Withdrawal)
    (ha : r.amount = some a) :
    (containsKey m r.client = false → applyRecord input m r = some m) ∧
    (containsKey m r.client = true → (getA m r.client).available < a →
      applyRecord input m r = some m) ∧
    (containsKey m r.client = true → a ≤ (getA m r.client).available →
      ∃ m', applyRecord input m r = some m' ∧
        (getA m' r.client).available = (getA m r.client).available - a ∧
        (getA m' r.client).total = (getA m r.client).total - a ∧
        (getA m' r.client).held = (getA m r.client).held ∧
        (getA m' r.client).locked = (getA m r.client).locked ∧
        (∀ c, c ≠ r.client → getA m' c = getA m c) ∧
        (∀ c, containsKey m' c = containsKey m c)) := by
  refine ⟨?_, ?_, ?_⟩
  · exact fun hc => applyRecord_withdrawal_absent hr hc
  · intro hc hgt
    exact applyRecord_withdrawal_gt hr ha hc (not_le.mpr hgt)
  · intro hc hle
    refine ⟨_, applyRecord_withdrawal_le hr ha hc hle, ?_, ?_, ?_, ?_, ?_, ?_⟩
    · rw [getA_updAcct_self m r.client _ hc]
    · rw [getA_updAcct_self m r.client _ hc]
    · rw [getA_updAcct_self m r.client _ hc]
    · rw [getA_updAcct_self m r.client _ hc]
    · exact fun c hcne => getA_updAcct_ne m r.client c _ hcne
    · exact fun c => containsKey_updAcct m r.client c _

/-- Witness for C6 at a concrete funded account. -/
theorem c6_withdrawal_witness :
    applyRecord [sampleWithdrawal] [] sampleWithdrawal = some [] ∧
    ∃ m', applyRecord [sampleWithdrawal] [(1, sampleAccount)] sampleWithdrawal =
        some m' ∧
      (getA m' 1).available = (getA [(1, sampleAccount)] 1).available - 3 :=
  ⟨(c6_withdrawal [sampleWithdrawal] [] sampleWithdrawal 3 rfl rfl).1 rfl,
   by
    obtain ⟨m', h1, h2, -⟩ :=
      (c6_withdrawal [sampleWithdrawal] [(1, sampleAccount)] sampleWithdrawal 3
        rfl rfl).2.2 (by decide)
        (by simp +decide [getA, sampleAccount, OutputRecord.new])
    exact ⟨m', h1, h2⟩⟩

/-- Claim C7: the final output holds exactly one record per client that
appears in at least one Deposit and none for any other client; the first
Deposit for an unseen client creates its account as
`available = total = amount, held = 0, locked = false`; and any
non-Deposit record for a client with no account is silently ignored. -/
theorem c7_accounts_from_deposits :
    (∀ (input : List InputRecord) (out : List OutputRecord),
        make_client_output_records input = some out →
        ∀ c, countClient out c = if hasDeposit input c = true then 1 else 0) ∧
    (∀ (input : List InputRecord) (m : AccountMap) (r : InputRecord) (a : Rat),
        r.type = TransactionType.Deposit → r.amount = some a →
        containsKey m r.client = false →
        applyRecord input m r =
          some (insertAcct m r.client (OutputRecord.new r.client a 0 a false))) ∧
    (∀ (input : List InputRecord) (m : AccountMap) (r : InputRecord),
        r.type ≠ TransactionType.Deposit → containsKey m r.client = false →
        applyRecord input m r = some m) := by
  refine ⟨?_, ?_, ?_⟩
  · intro input out h c
    unfold make_client_output_records at h
    cases hp : processRecords input input [] with
    | none => rw [hp] at h; cases h
    | some m' =>
      rw [hp] at h
      obtain rfl := Option.some.inj h
      have hwf : WFmap m' := processRecords_WF WFmap_nil hp
      rw [countClient_values hwf c]
      have hck := processRecords_containsKey hp c
      by_cases hd : hasDeposit input c = true
      · rw [if_pos hd, if_pos (hck.mpr (Or.inr hd))]
      · have hnot : ¬ containsKey m' c = true := by
          intro hT
          rcases hck.mp hT with hF | hD
          · simp [containsKey] at hF
          · exact hd hD
        rw [if_neg hd, if_neg hnot]
  · exact fun input m r a hr ha hc => applyRecord_deposit_absent hr ha hc
  · intro input m r hr hc
    cases htt : r.type
    case Deposit => exact absurd htt hr
    case Withdrawal => exact applyRecord_withdrawal_absent htt hc
    case Dispute => exact applyRecord_dispute_absent htt hc
    case Resolve => exact applyRecord_resolve_absent htt hc
    case Chargeback => exact applyRecord_chargeback_absent htt hc

/-- Witness for C7: one deposit yields exactly one record for client 1, and a
dispute for an unseen client creates nothing. -/
theorem c7_accounts_from_deposits_witness :
    countClient [sampleAccount] 1 =
      (if hasDeposit [sampleDeposit] 1 = true then 1 else 0) ∧
    applyRecord [sampleDispute] [] sampleDispute = some [] :=
  ⟨c7_accounts_from_deposits.1 [sampleDeposit] [sampleAccount]
      (by simp +decide [make_client_output_records, processRecords, applyRecord,
        containsKey, insertAcct, OutputRecord.new, sampleDeposit, sampleAccount])
      1,
   c7_accounts_from_deposits.2.2 [sampleDispute] [] sampleDispute
      (by decide) rfl⟩

/-- Claim C8: the effective amount of dispute-family transitions is the
amount of the first record of the whole sequence matching `(client, tx)` with
a present amount — the loop hands the full input, not the processed prefix,
to every step — and the transition is a no-op when no such record exists. -/
theorem c8_point_in_time_lookup :
    (∀ (rs : List InputRecord) (c t : Nat),
        get_transaction_amount rs c t =
          (rs.find? fun q =>
            decide (q.client = c ∧ q.tx = t ∧ q.amount.isSome)).bind
            InputRecord.amount) ∧
    (∀ (input : List InputRecord) (m : AccountMap) (r : InputRecord),
        (r.type = TransactionType.Dispute ∨ r.type = TransactionType.Resolve ∨
          r.type = TransactionType.Chargeback) →
        get_transaction_amount input r.client r.tx = none →
        applyRecord input m r = some m) ∧
    (∀ (input pre suf : List InputRecord) (m : AccountMap) (r : InputRecord),
        processRecords input (pre ++ r :: suf) m =
          match processRecords input pre m with
          | none => none
          | some m2 =>
            match applyRecord input m2 r with
            | none => none
            | some m3 => processRecords input suf m3) := by
  refine ⟨get_transaction_amount_eq_find, ?_, ?_⟩
  · intro input m r hr ht
    rcases hr with hr | hr | hr
    · exact applyRecord_dispute_nolookup hr ht
    · exact applyRecord_resolve_nolookup hr ht
    · exact applyRecord_chargeback_nolookup hr ht
  · intro input pre suf m r
    rw [processRecords_append]
    cases hp : processRecords input pre m with
    | none => rfl
    | some m2 =>
      cases happ : applyRecord input m2 r with
      | none => simp [processRecords, happ]
      | some m3 => simp [processRecords, happ]

/-- Witness for C8: the lookup for a dispute placed before its deposit still
finds the amount (the matching record sits later in the sequence), and a
resolve with no matching amount-bearing record is a no-op. -/
theorem c8_point_in_time_lookup_witness :
    get_transaction_amount [sampleDispute, sampleDeposit] 1 1 =
      (([sampleDispute, sampleDeposit].find? fun q =>
        decide (q.client = 1 ∧ q.tx = 1 ∧ q.amount.isSome)).bind
        InputRecord.amount) ∧
    applyRecord [] [(1, sampleAccount)] sampleResolve = some [(1, sampleAccount)] :=
  ⟨c8_point_in_time_lookup.1 [sampleDispute, sampleDeposit] 1 1,
   c8_point_in_time_lookup.2.1 [] [(1, sampleAccount)] sampleResolve
      (Or.inr (Or.inl rfl)) rfl⟩

/-- Claim C9: a Dispute immediately followed by a Resolve for the same
`(client, tx)` (with a successful lookup) restores the account map — in
particular available and held — to its state immediately before the Dispute. -/
theorem c9_dispute_resolve_roundtrip (input pre suf : List InputRecord)
    (d r : InputRecord) (m : AccountMap) (a : Rat)
    (hin : input = pre ++ d :: r :: suf)
    (hd : d.type = TransactionType.Dispute)
    (hr : r.type = TransactionType.Resolve)
    (hcl : r.client = d.client) (htx : r.tx = d.tx)
    (ha : get_transaction_amount input d.client d.tx = some a)
    (hm : processRecords input pre [] = some m) :
    processRecords input (pre ++ [d, r]) [] = some m ∧
    (getA m d.client).available = (getA m d.client).available ∧
    (getA m d.client).held = (getA m d.client).held := by
  refine ⟨?_, rfl, rfl⟩
  rw [processRecords_append, hm]
  have hdin : d ∈ input := by
    rw [hin]
    exact List.mem_append_right pre (List.mem_cons_self d (r :: suf))
  have hcd : check_dispute input r.client r.tx = true := by
    rw [hcl, htx]
    exact check_dispute_of_mem hdin hd
  cases hc : containsKey m d.client with
  | false =>
    have h1 : applyRecord input m d = some m := applyRecord_dispute_absent hd hc
    have h2 : applyRecord input m r = some m :=
      applyRecord_resolve_absent hr (by rw [hcl]; exact hc)
    simp [processRecords, h1, h2]
  | true =>
    have h1 : applyRecord input m d =
        some (updAcct m d.client fun x =>
          { x with available := x.available - a, held := x.held + a }) :=
      applyRecord_dispute_apply hd hc ha
    have hc2 : containsKey (updAcct m d.client fun x =>
        { x with available := x.available - a, held := x.held + a }) r.client =
        true := by
      rw [hcl, containsKey_updAcct]
      exact hc
    have ha2 : get_transaction_amount input r.client r.tx = some a := by
      rw [hcl, htx]; exact ha
    have h2 : applyRecord input (updAcct m d.client fun x =>
          { x with available := x.available - a, held := x.held + a }) r =
        some (updAcct (updAcct m d.client fun x =>
            { x with available := x.available - a, held := x.held + a })
          r.client fun x =>
          { x with available := x.available + a, held := x.held - a }) :=
      applyRecord_resolve_apply hr hc2 ha2 hcd
    rw [hcl] at h2
    simp only [processRecords, h1, h2]
    rw [updAcct_updAcct]
    rw [updAcct_congr_id]
    intro x
    cases x
    simp

/-- Witness for C9: deposit, then an adjacent dispute/resolve pair, lands back
on the post-deposit account state. -/
theorem c9_dispute_resolve_roundtrip_witness :
    processRecords [sampleDeposit, sampleDispute, sampleResolve]
        ([sampleDeposit] ++ [sampleDispute, sampleResolve]) [] =
      some [(1, sampleAccount)] :=
  (c9_dispute_resolve_roundtrip [sampleDeposit, sampleDispute, sampleResolve]
    [sampleDeposit] [] sampleDispute sampleResolve [(1, sampleAccount)] 5
    rfl rfl rfl rfl rfl
    (by simp +decide [get_transaction_amount, sampleDeposit, sampleDispute,
      sampleResolve])
    (by simp +decide [processRecords, applyRecord, containsKey, insertAcct,
      OutputRecord.new, sampleDeposit, sampleAccount])).1
